import Mathlib

/-!
StringRef.h : bounded string buffers

A shallow embedding of `src/Libraries/General/StringRef.h`: the non-owning
`StringRef` (pointer plus declared length) and the owning `String<Len>`
(an embedded array of `Len + 1` chars), together with the padded copy and the
constant time comparison of `String<Len>`.

Memory is modelled as lists of bytes.  A `char` is its 8-bit pattern, a value
below `256`; the bitwise operators of `Fin 256` are the ones of `Nat` reduced
modulo `256`, which is what `rslt |= (a ^ b)` computes on the bit patterns
after integer promotion and narrowing back to `char`, whether `char` is signed
or not.
-/

namespace RepRapFirmware

/-- The bit pattern of a `char`. -/
abbrev Byte := Fin 256

/-- A `const char *` argument that points to a C string: the characters before
the terminator, none of which is the zero byte. -/
structure CString where
  chars : List Byte
  nonzero : (0 : Byte) ∉ chars

/-- The bytes found at the address of a C string: its characters followed by
the zero terminator. -/
def CString.mem (s : CString) : List Byte := s.chars ++ [0]

/-- Modelled from the spec: `strnlen` is only declared in the header (line 16),
its body is external.  Spec 6, bounded length scan: at most `n` bytes at `s` are
scanned for a terminator; the result is the number of bytes before the first
zero byte among them, or `n` when there is none. -/
def strnlen : List Byte → Nat → Nat
  | [], _ => 0
  | _ :: _, 0 => 0
  | c :: s, n + 1 => if c = 0 then 0 else strnlen s n + 1

/-- The libc `strlen(s)` of a C string argument. -/
def CString.strlen (s : CString) : Nat := strnlen s.mem s.mem.length

/-- The libc `memset(dst, c, n)`: the first `n` bytes of `dst` become `c`. -/
def memset (dst : List Byte) (c : Byte) (n : Nat) : List Byte :=
  (List.range dst.length).map fun i => if i < n then c else dst.getD i 0

/-- The libc `memcpy(dst + off, src, n)`: the bytes of `dst` at offsets
`off .. off + n - 1` become the first `n` bytes of `src`. -/
def memcpy (dst : List Byte) (off : Nat) (src : List Byte) (n : Nat) : List Byte :=
  (List.range dst.length).map fun i =>
    if off ≤ i ∧ i < off + n then src.getD (i - off) 0 else dst.getD i 0

/-- Reading a C string back from a `const char *`: the bytes before the first
zero byte. -/
def readCStr (m : List Byte) : List Byte := m.takeWhile fun c => c ≠ 0

/-! ## class StringRef -/

/-- The class `StringRef` (lines 24-52): `p` is the storage the pointer refers
to, `len` the declared number of characters in the storage. -/
structure StringRef where
  p : List Byte
  len : Nat

/-- The method `StringRef::Capacity` (line 31): `len - 1`, computed in the
unsigned `size_t` arithmetic of `w` bits. -/
def StringRef.Capacity (w : Nat) (r : StringRef) : Nat := (r.len + (2 ^ w - 1)) % 2 ^ w

/-- The method `StringRef::IsEmpty` (line 33): `p[0] == 0`. -/
def StringRef.IsEmpty (r : StringRef) : Bool := decide (r.p.getD 0 0 = 0)

/-- The method `StringRef::c_str` (line 35). -/
def StringRef.c_str (r : StringRef) : List Byte := r.p

/-- The method `StringRef::Clear` (line 41): `p[0] = 0`. -/
def StringRef.Clear (r : StringRef) : StringRef := ⟨r.p.set 0 0, r.len⟩

/-- Modelled from the spec: the body of `StringRef::strlen` (declared at line
32) is not in the header.  Spec 4.1: the number of characters before the
terminator, bounded-scanned; the scan is bounded by the capacity, as in
`String<Len>::strlen` (line 62). -/
def StringRef.strlen (r : StringRef) : Nat := strnlen r.p (r.len - 1)

/-- Modelled from the spec: the body of `StringRef::copy` (declared at line
47, "returns true if buffer is too small") is not in the header.  Spec 4.1 and
8: the contents are replaced by `src` truncated to the capacity
`declaredLength - 1`, the result is always left terminated, and the flag
returned tells that `src` did not fit (an exactly fitting source is not
flagged). -/
def StringRef.copy (r : StringRef) (src : CString) : StringRef × Bool :=
  let capacity := r.len - 1
  let toCopy := min src.strlen capacity
  (⟨(memcpy r.p 0 src.mem toCopy).set toCopy 0, r.len⟩, decide (capacity < src.strlen))

/-- Modelled from the spec: the body of `StringRef::cat(const char *)`
(declared at line 48) is not in the header.  Spec 4.1: `src` is appended at
the current end of the string, truncated to the remaining capacity, with the
truncation flag of `copy` computed against the remaining room. -/
def StringRef.cat (r : StringRef) (src : CString) : StringRef × Bool :=
  let length := r.strlen
  let room := r.len - 1 - length
  let toCopy := min src.strlen room
  (⟨(memcpy r.p length src.mem toCopy).set (length + toCopy) 0, r.len⟩,
    decide (room < src.strlen))

/-- Modelled from the spec: the body of `StringRef::cat(char)` (declared at
line 49) is not in the header.  Spec 4.1: the single character is appended,
followed by the terminator, when the remaining capacity has room for it;
otherwise nothing is appended and the flag tells that it did not fit. -/
def StringRef.catChar (r : StringRef) (c : Byte) : StringRef × Bool :=
  let length := r.strlen
  let room := r.len - 1 - length
  if 1 ≤ room then (⟨(r.p.set length c).set (length + 1) 0, r.len⟩, false)
  else (r, true)

/-! ## template class String -/

/-- The class `String<Len>` (lines 55-84): `char storage[Len + 1]`. -/
structure String (Len : Nat) where
  storage : List Byte
  size_eq : storage.length = Len + 1

/-- The constructor `String<Len>::String()` (line 58): `storage[0] = 0`.  The
array is default-initialised and only offset 0 is assigned, so the other bytes
are indeterminate: the argument stands for the values they happen to take,
about which nothing is known (they need not be what the memory held before).
What holds of the constructed object is what holds for every argument. -/
def String.ctor {Len : Nat} (indet : String Len) : String Len :=
  ⟨indet.storage.set 0 0, by simp [indet.size_eq]⟩

/-- The method `String<Len>::GetRef` (line 60). -/
def String.GetRef {Len : Nat} (s : String Len) : StringRef := ⟨s.storage, Len + 1⟩

/-- The method `String<Len>::c_str` (line 61). -/
def String.c_str {Len : Nat} (s : String Len) : List Byte := s.storage

/-- The method `String<Len>::strlen` (line 62): `strnlen(storage, Len)`. -/
def String.strlen {Len : Nat} (s : String Len) : Nat := strnlen s.storage Len

/-- The method `String<Len>::IsEmpty` (line 63): `storage[0] == 0`. -/
def String.IsEmpty {Len : Nat} (s : String Len) : Bool := decide (s.storage.getD 0 0 = 0)

/-- The const `String<Len>::operator[]` (line 66): `storage[index]`. -/
def String.index {Len : Nat} (s : String Len) (i : Nat) : Byte := s.storage.getD i 0

/-- The method `String<Len>::Capacity` (line 67). -/
def String.Capacity {Len : Nat} (_s : String Len) : Nat := Len

/-- The method `String<Len>::Clear` (line 69): `storage[0] = 0`. -/
def String.Clear {Len : Nat} (s : String Len) : String Len :=
  ⟨s.storage.set 0 0, by simp [s.size_eq]⟩

/-- The method `String<Len>::copy` (line 74): `GetRef().copy(src)`. -/
def String.copy {Len : Nat} (s : String Len) (src : CString) : String Len × Bool :=
  (⟨(s.GetRef.copy src).1.p, by simp [StringRef.copy, String.GetRef, memcpy, s.size_eq]⟩,
    (s.GetRef.copy src).2)

/-- The method `String<Len>::cat(const char *)` (line 75): `GetRef().cat(src)`. -/
def String.cat {Len : Nat} (s : String Len) (src : CString) : String Len × Bool :=
  (⟨(s.GetRef.cat src).1.p, by simp [StringRef.cat, String.GetRef, memcpy, s.size_eq]⟩,
    (s.GetRef.cat src).2)

/-- The method `String<Len>::cat(char)` (line 76): `GetRef().cat(c)`. -/
def String.catChar {Len : Nat} (s : String Len) (c : Byte) : String Len × Bool :=
  (⟨(s.GetRef.catChar c).1.p, by
      simp only [StringRef.catChar, String.GetRef]
      split <;> simp [s.size_eq]⟩,
    (s.GetRef.catChar c).2)

/-- The method `String<Len>::CopyAndPad` (lines 87-91):
`memset(storage, 0, Len + 1); copy(src);`. -/
def String.CopyAndPad {Len : Nat} (s : String Len) (src : CString) : String Len :=
  (String.copy ⟨memset s.storage 0 (Len + 1), by simp [memset, s.size_eq]⟩ src).1

/-- The state of the loop of `ConstantTimeEquals`: the accumulator `rslt` and
the offsets at which `storage` and `other.storage` have been read so far. -/
structure CompareState where
  rslt : Byte
  reads : List Nat

/-- The body of the loop of `ConstantTimeEquals` (line 99) at index `i`:
`rslt |= (storage[i] ^ other.storage[i])`. -/
def String.compareBody {Len : Nat} (s other : String Len) (st : CompareState) (i : Nat) :
    CompareState :=
  ⟨st.rslt ||| (s.index i ^^^ other.index i), st.reads ++ [i]⟩

/-- The loop of `ConstantTimeEquals` (lines 96-100):
`char rslt = 0; for (size_t i = 0; i < Len; ++i) body`. -/
def String.compareLoop {Len : Nat} (s other : String Len) : CompareState :=
  (List.range Len).foldl (String.compareBody s other) ⟨0, []⟩

/-- The method `String<Len>::ConstantTimeEquals` (lines 94-102): the loop, then
`return rslt == 0`. -/
def String.ConstantTimeEquals {Len : Nat} (s other : String Len) : Bool :=
  decide ((String.compareLoop s other).rslt = 0)


/-! ## Sequences of mutating operations -/

/-- A mutating operation of `String<Len>` after its construction: `Clear()`,
`copy(src)`, `cat(src)`, `cat(c)` and `CopyAndPad(src)`. -/
inductive Op where
  | Clear : Op
  | copy : CString → Op
  | cat : CString → Op
  | catChar : Byte → Op
  | CopyAndPad : CString → Op

/-- One operation applied to a `String<Len>`; a returned flag is dropped. -/
def String.apply {Len : Nat} (s : String Len) : Op → String Len
  | Op.Clear => s.Clear
  | Op.copy src => (s.copy src).1
  | Op.cat src => (s.cat src).1
  | Op.catChar c => (s.catChar c).1
  | Op.CopyAndPad src => s.CopyAndPad src

/-- A sequence of operations applied in order. -/
def String.run {Len : Nat} (s : String Len) (ops : List Op) : String Len :=
  ops.foldl String.apply s

/-- The storage of `Len + 1` bytes holds a zero terminator at some offset. -/
def String.Terminated {Len : Nat} (s : String Len) : Prop :=
  ∃ i, i < Len + 1 ∧ s.storage.getD i 0 = 0

/-! ## Memory lemmas -/

theorem getD_memset (dst : List Byte) (c : Byte) (n i : Nat) :
    (memset dst c n).getD i 0 = if i < n ∧ i < dst.length then c else dst.getD i 0 := by
  unfold memset
  by_cases hi : i < dst.length
  · simp [List.getD_eq_getElem?_getD, List.getElem?_map, List.getElem?_range, hi]
  · have h2 : dst.length ≤ i := Nat.le_of_not_lt hi
    have h3 : (List.range dst.length)[i]? = none := List.getElem?_eq_none (by simpa using h2)
    have h4 : dst[i]? = none := List.getElem?_eq_none h2
    simp [List.getD_eq_getElem?_getD, List.getElem?_map, hi, h3, h4]

theorem getD_memcpy (dst : List Byte) (off : Nat) (src : List Byte) (n i : Nat) :
    (memcpy dst off src n).getD i 0 =
      if off ≤ i ∧ i < off + n ∧ i < dst.length then src.getD (i - off) 0 else dst.getD i 0 := by
  unfold memcpy
  by_cases hi : i < dst.length
  · simp [List.getD_eq_getElem?_getD, List.getElem?_map, List.getElem?_range, hi]
  · have h2 : dst.length ≤ i := Nat.le_of_not_lt hi
    have h3 : (List.range dst.length)[i]? = none := List.getElem?_eq_none (by simpa using h2)
    have h4 : dst[i]? = none := List.getElem?_eq_none h2
    simp [List.getD_eq_getElem?_getD, List.getElem?_map, hi, h3, h4]

theorem getD_set (l : List Byte) (k : Nat) (c : Byte) (i : Nat) :
    (l.set k c).getD i 0 = if i = k ∧ i < l.length then c else l.getD i 0 := by
  by_cases hik : i = k
  · subst hik
    by_cases hi : i < l.length
    · simp [List.getD_eq_getElem?_getD, hi]
    · have h2 : l.length ≤ i := Nat.le_of_not_lt hi
      have h3 : (l.set i c)[i]? = none := List.getElem?_eq_none (by simpa using h2)
      have h4 : l[i]? = none := List.getElem?_eq_none h2
      simp [List.getD_eq_getElem?_getD, hi, h3, h4]
  · have : ¬ k = i := fun h => hik h.symm
    simp [List.getD_eq_getElem?_getD, List.getElem?_set, hik, this]

theorem length_memset (dst : List Byte) (c : Byte) (n : Nat) :
    (memset dst c n).length = dst.length := by simp [memset]

theorem length_memcpy (dst : List Byte) (off : Nat) (src : List Byte) (n : Nat) :
    (memcpy dst off src n).length = dst.length := by simp [memcpy]

theorem ext_getD {l₁ l₂ : List Byte} (hlen : l₁.length = l₂.length)
    (h : ∀ i, i < l₁.length → l₁.getD i 0 = l₂.getD i 0) : l₁ = l₂ := by
  apply List.ext_getElem hlen
  intro i h₁ h₂
  have := h i h₁
  simpa [List.getD_eq_getElem?_getD, List.getElem?_eq_getElem, h₁, h₂] using this

theorem strnlen_le (m : List Byte) (n : Nat) : strnlen m n ≤ n := by
  induction m generalizing n with
  | nil => simp [strnlen]
  | cons c s ih =>
    cases n with
    | zero => simp [strnlen]
    | succ n =>
      simp only [strnlen]
      split
      · omega
      · have := ih n
        omega

theorem strnlen_chars (chars rest : List Byte) (h : (0 : Byte) ∉ chars) (n : Nat) :
    strnlen (chars ++ 0 :: rest) n = min chars.length n := by
  induction chars generalizing n with
  | nil => cases n <;> simp [strnlen]
  | cons c s ih =>
    have hc : c ≠ 0 := fun hc => h (by simp [hc])
    have hs : (0 : Byte) ∉ s := fun hs => h (by simp [hs])
    cases n with
    | zero => simp [strnlen]
    | succ n =>
      rw [List.cons_append, strnlen, if_neg hc, ih hs n, List.length_cons]
      omega

theorem CString.strlen_eq (s : CString) : s.strlen = s.chars.length := by
  unfold CString.strlen CString.mem
  rw [strnlen_chars s.chars [] s.nonzero]
  simp

theorem getD_mem (src : CString) (i : Nat) : src.mem.getD i 0 = src.chars.getD i 0 := by
  unfold CString.mem
  by_cases hi : i < src.chars.length
  · simp [List.getD_eq_getElem?_getD, List.getElem?_append_left hi]
  · have h2 : src.chars.length ≤ i := Nat.le_of_not_lt hi
    have h3 : src.chars[i]? = none := List.getElem?_eq_none h2
    rw [List.getD_eq_getElem?_getD, List.getD_eq_getElem?_getD, List.getElem?_append_right h2, h3]
    by_cases h0 : i - src.chars.length = 0
    · simp [h0]
    · have : ([0] : List Byte)[i - src.chars.length]? = none :=
        List.getElem?_eq_none (by simp; omega)
      simp [this]

theorem getD_take (l : List Byte) (k i : Nat) :
    (l.take k).getD i 0 = if i < k then l.getD i 0 else 0 := by
  by_cases hi : i < k
  · simp [List.getD_eq_getElem?_getD, List.getElem?_take, hi]
  · have : (l.take k)[i]? = none := List.getElem?_eq_none (by simp; omega)
    simp [List.getD_eq_getElem?_getD, this, hi]

theorem getD_of_length_le (l : List Byte) (i : Nat) (h : l.length ≤ i) : l.getD i 0 = 0 := by
  simp [List.getD_eq_getElem?_getD, List.getElem?_eq_none h]

theorem getD_append_cons (l rest : List Byte) (c : Byte) (i : Nat) :
    (l ++ c :: rest).getD i 0 =
      if i < l.length then l.getD i 0 else if i = l.length then c
      else rest.getD (i - l.length - 1) 0 := by
  by_cases hi : i < l.length
  · simp [List.getD_eq_getElem?_getD, List.getElem?_append_left hi, hi]
  · have h2 : l.length ≤ i := Nat.le_of_not_lt hi
    rw [if_neg hi, List.getD_eq_getElem?_getD, List.getElem?_append_right h2]
    by_cases h0 : i = l.length
    · simp [h0]
    · obtain ⟨j, hj⟩ : ∃ j, i - l.length = j + 1 := ⟨i - l.length - 1, by omega⟩
      rw [if_neg h0, hj, List.getElem?_cons_succ, List.getD_eq_getElem?_getD]
      congr 2

theorem getD_drop (l : List Byte) (k i : Nat) : (l.drop k).getD i 0 = l.getD (k + i) 0 := by
  simp [List.getD_eq_getElem?_getD, List.getElem?_drop]

/-- The storage left by `StringRef::copy` on a buffer at least as long as its
declared length: the copied characters, the terminator, then the old bytes. -/
theorem StringRef.copy_p (r : StringRef) (src : CString) (h1 : 1 ≤ r.len)
    (hlen : r.len ≤ r.p.length) :
    (r.copy src).1.p =
      src.chars.take (r.len - 1) ++ 0 :: r.p.drop (min src.chars.length (r.len - 1) + 1) := by
  have hk : (src.chars.take (r.len - 1)).length = min src.chars.length (r.len - 1) := by
    simp [List.length_take, Nat.min_comm]
  apply ext_getD
  · simp only [StringRef.copy, List.length_set, length_memcpy, List.length_append,
      List.length_cons, List.length_drop, hk]
    omega
  · intro i _
    simp only [StringRef.copy, getD_set, getD_memcpy, getD_append_cons, length_memcpy, hk,
      CString.strlen_eq, getD_mem, getD_take, getD_drop]
    by_cases hA : i = min src.chars.length (r.len - 1)
    · have : i < r.p.length := by omega
      rw [if_pos ⟨hA, this⟩, if_neg (by omega), if_pos hA]
    · by_cases hB : i < min src.chars.length (r.len - 1)
      · have h3 : i < r.p.length := by omega
        have h4 : i < r.len - 1 := by omega
        simp [hA, hB, h3, h4]
      · have : min src.chars.length (r.len - 1) + 1 + (i - min src.chars.length (r.len - 1) - 1)
            = i := by omega
        simp [hA, hB, this]


/-! ## Bitwise lemmas on bytes -/

theorem nat_or_eq_zero (a b : Nat) : a ||| b = 0 ↔ a = 0 ∧ b = 0 := by
  constructor
  · intro h
    have hbit : ∀ i, (a.testBit i || b.testBit i) = false := by
      intro i
      rw [← Nat.testBit_or, h, Nat.zero_testBit]
    constructor
    · apply Nat.eq_of_testBit_eq
      intro i
      have := hbit i
      rw [Nat.zero_testBit]
      cases ha : a.testBit i <;> simp_all
    · apply Nat.eq_of_testBit_eq
      intro i
      have := hbit i
      rw [Nat.zero_testBit]
      cases hb : b.testBit i <;> simp_all
  · rintro ⟨rfl, rfl⟩
    rfl

theorem byte_xor_val (a b : Byte) : (a ^^^ b).val = a.val ^^^ b.val := by
  show (Nat.xor a.val b.val) % 256 = a.val ^^^ b.val
  exact Nat.mod_eq_of_lt (Nat.xor_lt_two_pow (n := 8) a.isLt b.isLt)

theorem byte_or_val (a b : Byte) : (a ||| b).val = a.val ||| b.val := by
  show (Nat.lor a.val b.val) % 256 = a.val ||| b.val
  exact Nat.mod_eq_of_lt (Nat.or_lt_two_pow (n := 8) a.isLt b.isLt)

theorem byte_xor_eq_zero (a b : Byte) : a ^^^ b = 0 ↔ a = b := by
  rw [Fin.ext_iff, byte_xor_val, Fin.ext_iff]
  exact Nat.xor_eq_zero

theorem byte_or_eq_zero (a b : Byte) : a ||| b = 0 ↔ a = 0 ∧ b = 0 := by
  rw [Fin.ext_iff, byte_or_val, Fin.ext_iff, Fin.ext_iff]
  exact nat_or_eq_zero a.val b.val

/-! ## The comparison loop -/

/-- After `n` iterations the accumulator is zero exactly when the first `n`
byte pairs agree, and the offsets read are `0, 1, ..., n - 1`. -/
theorem compareFold {Len : Nat} (s other : String Len) (n : Nat) :
    (((List.range n).foldl (String.compareBody s other) ⟨0, []⟩).rslt = 0 ↔
        ∀ i, i < n → s.index i = other.index i) ∧
      ((List.range n).foldl (String.compareBody s other) ⟨0, []⟩).reads = List.range n := by
  induction n with
  | zero => simp
  | succ n ih =>
    rw [List.range_succ, List.foldl_append, List.foldl_cons, List.foldl_nil]
    obtain ⟨ih1, ih2⟩ := ih
    constructor
    · simp only [String.compareBody]
      rw [byte_or_eq_zero, byte_xor_eq_zero, ih1]
      constructor
      · rintro ⟨h1, h2⟩ i hi
        rcases Nat.lt_succ_iff_lt_or_eq.mp hi with h | h
        · exact h1 i h
        · rw [h]; exact h2
      · intro h
        exact ⟨fun i hi => h i (Nat.lt_succ_of_lt hi), h n (Nat.lt_succ_self n)⟩
    · simp only [String.compareBody]
      rw [ih2]

theorem constantTimeEquals_iff {Len : Nat} (s other : String Len) :
    s.ConstantTimeEquals other = true ↔ ∀ i, i < Len → s.index i = other.index i := by
  unfold String.ConstantTimeEquals String.compareLoop
  rw [decide_eq_true_iff]
  exact (compareFold s other Len).1

/-! ## The padded copy -/

theorem memset_zero (dst : List Byte) (n : Nat) (h : dst.length ≤ n) :
    memset dst 0 n = List.replicate dst.length 0 := by
  apply ext_getD
  · simp [length_memset]
  · intro i hi
    rw [length_memset] at hi
    rw [getD_memset, if_pos ⟨by omega, hi⟩]
    simp [List.getD_eq_getElem?_getD, List.getElem?_replicate, hi]

theorem copyAndPad_storage {Len : Nat} (x : String Len) (src : CString) :
    (x.CopyAndPad src).storage =
      src.chars.take Len ++ List.replicate (Len + 1 - min src.chars.length Len) 0 := by
  unfold String.CopyAndPad String.copy
  simp only [String.GetRef]
  rw [StringRef.copy_p _ _ (by simp) (by simp [length_memset, x.size_eq])]
  simp only [Nat.add_sub_cancel]
  rw [memset_zero _ _ (by simp [x.size_eq]), x.size_eq, List.drop_replicate]
  congr 1
  rw [show List.replicate (Len + 1 - min src.chars.length Len) (0 : Byte)
      = List.replicate (Len + 1 - (min src.chars.length Len + 1) + 1) 0 by congr 1; omega]
  rfl

theorem copyAndPad_index {Len : Nat} (x : String Len) (src : CString) (i : Nat) :
    (x.CopyAndPad src).index i = if i < Len then src.chars.getD i 0 else 0 := by
  unfold String.index
  have hk : (src.chars.take Len).length = min src.chars.length Len := by
    simp [List.length_take, Nat.min_comm]
  rw [copyAndPad_storage]
  by_cases hi : i < min src.chars.length Len
  · rw [List.getD_append _ _ _ _ (by omega), getD_take]
  · rw [List.getD_append_right _ _ _ _ (by omega)]
    have h0 : (List.replicate (Len + 1 - min src.chars.length Len) (0 : Byte)).getD
        (i - (src.chars.take Len).length) 0 = 0 := by
      simp only [List.getD_eq_getElem?_getD, List.getElem?_replicate]
      split <;> rfl
    rw [h0]
    split
    · rw [getD_of_length_le]; omega
    · rfl

theorem getD_ne_zero_of_lt (l : List Byte) (h0 : (0 : Byte) ∉ l) (i : Nat) (hi : i < l.length) :
    l.getD i 0 ≠ 0 := by
  intro h
  apply h0
  have hmem : l[i] ∈ l := List.getElem_mem hi
  have hget : l.getD i 0 = l[i] := by
    simp [List.getD_eq_getElem?_getD, List.getElem?_eq_getElem hi]
  rw [← h, hget]
  exact hmem

/-- Two zero-free character lists of length at most `n` that agree, read as
zero padded, on the first `n` offsets are the same list. -/
theorem chars_eq_of_padded_eq (a b : List Byte) (ha0 : (0 : Byte) ∉ a) (hb0 : (0 : Byte) ∉ b)
    (n : Nat) (ha : a.length ≤ n) (hb : b.length ≤ n)
    (h : ∀ i, i < n → a.getD i 0 = b.getD i 0) : a = b := by
  have hlen : a.length = b.length := by
    rcases Nat.lt_trichotomy a.length b.length with hlt | heq | hgt
    · exfalso
      have h1 := h a.length (by omega)
      rw [getD_of_length_le a _ (Nat.le_refl _)] at h1
      exact getD_ne_zero_of_lt b hb0 _ hlt h1.symm
    · exact heq
    · exfalso
      have h1 := h b.length (by omega)
      rw [getD_of_length_le b _ (Nat.le_refl _)] at h1
      exact getD_ne_zero_of_lt a ha0 _ hgt h1
  exact ext_getD hlen (fun i hi => h i (by omega))

theorem CString.eq_of_chars {a b : CString} (h : a.chars = b.chars) : a = b := by
  cases a; cases b; cases h; rfl

theorem String.eq_of_storage {Len : Nat} {x y : String Len} (h : x.storage = y.storage) :
    x = y := by
  cases x; cases y; cases h; rfl

/-! ## Termination of the storage -/

theorem terminated_of_set {Len : Nat} (l : List Byte) (k : Nat) (hl : l.length = Len + 1)
    (hk : k ≤ Len) : ∃ i, i < Len + 1 ∧ (l.set k 0).getD i 0 = 0 :=
  ⟨k, by omega, by rw [getD_set, if_pos ⟨rfl, by omega⟩]⟩

theorem terminated_clear {Len : Nat} (s : String Len) : s.Clear.Terminated :=
  terminated_of_set s.storage 0 s.size_eq (Nat.zero_le _)

theorem terminated_ctor {Len : Nat} (prior : String Len) : (String.ctor prior).Terminated :=
  terminated_of_set prior.storage 0 prior.size_eq (Nat.zero_le _)

theorem terminated_copy {Len : Nat} (s : String Len) (src : CString) :
    (s.copy src).1.Terminated := by
  unfold String.Terminated String.copy StringRef.copy String.GetRef
  exact terminated_of_set _ _ (by simp [length_memcpy, s.size_eq]) (by simp)

theorem terminated_cat {Len : Nat} (s : String Len) (src : CString) :
    (s.cat src).1.Terminated := by
  unfold String.Terminated String.cat StringRef.cat String.GetRef StringRef.strlen
  have hle := strnlen_le s.storage Len
  apply terminated_of_set _ _ (by simp [length_memcpy, s.size_eq])
  simp only [Nat.add_sub_cancel]
  omega

theorem terminated_catChar {Len : Nat} (s : String Len) (c : Byte) (h : s.Terminated) :
    (s.catChar c).1.Terminated := by
  unfold String.Terminated String.catChar StringRef.catChar String.GetRef StringRef.strlen
  have hle := strnlen_le s.storage Len
  simp only [Nat.add_sub_cancel]
  split
  · exact terminated_of_set _ _ (by simp [s.size_eq]) (by omega)
  · exact h

theorem terminated_copyAndPad {Len : Nat} (s : String Len) (src : CString) :
    (s.CopyAndPad src).Terminated := by
  unfold String.CopyAndPad
  exact terminated_copy _ src

theorem terminated_apply {Len : Nat} (s : String Len) (op : Op) (h : s.Terminated) :
    (s.apply op).Terminated := by
  cases op with
  | Clear => exact terminated_clear s
  | copy src => exact terminated_copy s src
  | cat src => exact terminated_cat s src
  | catChar c => exact terminated_catChar s c h
  | CopyAndPad src => exact terminated_copyAndPad s src

theorem terminated_run_of {Len : Nat} (ops : List Op) (s : String Len) (h : s.Terminated) :
    (s.run ops).Terminated := by
  induction ops generalizing s with
  | nil => exact h
  | cons op ops ih => exact ih (s.apply op) (terminated_apply s op h)

/-! ## Reading a copy back -/

theorem readCStr_chars (chars rest : List Byte) (h : (0 : Byte) ∉ chars) :
    readCStr (chars ++ 0 :: rest) = chars := by
  induction chars with
  | nil => simp [readCStr]
  | cons c s ih =>
    have hc : c ≠ 0 := fun hc => h (by simp [hc])
    have hs : (0 : Byte) ∉ s := fun hs => h (by simp [hs])
    have := ih hs
    unfold readCStr at this ⊢
    rw [List.cons_append, List.takeWhile_cons, this]
    simp [hc]

theorem take_append_cons_succ (l rest : List Byte) (c : Byte) :
    (l ++ c :: rest).take (l.length + 1) = l ++ [c] := by
  rw [show l ++ c :: rest = (l ++ [c]) ++ rest by simp]
  rw [List.take_append_of_le_length (by simp)]
  exact List.take_of_length_le (by simp)

/-! ## The claims -/

/-- C1: for two `String<N>` values both produced by `CopyAndPad`, from C strings
`a` and `b` no longer than `N` and from any prior contents, `ConstantTimeEquals`
returns true exactly when `a` and `b` are the same string. -/
theorem copyAndPad_constantTimeEquals_iff (N : Nat) (x y : String N) (a b : CString)
    (ha : a.strlen ≤ N) (hb : b.strlen ≤ N) :
    (x.CopyAndPad a).ConstantTimeEquals (y.CopyAndPad b) = true ↔ a = b := by
  rw [CString.strlen_eq] at ha hb
  rw [constantTimeEquals_iff]
  constructor
  · intro h
    apply CString.eq_of_chars
    apply chars_eq_of_padded_eq a.chars b.chars a.nonzero b.nonzero N ha hb
    intro i hi
    have := h i hi
    rw [copyAndPad_index, copyAndPad_index, if_pos hi, if_pos hi] at this
    exact this
  · rintro rfl i _
    rw [copyAndPad_index, copyAndPad_index]

/-- Witness of C1 at `N = 2` with both sources the full-capacity string "ab". -/
theorem copyAndPad_constantTimeEquals_iff_witness :
    (⟨[97, 98], by decide⟩ : CString).strlen ≤ 2 ∧
      (⟨[97, 98], by decide⟩ : CString).strlen ≤ 2 ∧
      (((⟨[1, 2, 3], rfl⟩ : String 2).CopyAndPad ⟨[97, 98], by decide⟩).ConstantTimeEquals
          ((⟨[7, 0, 9], rfl⟩ : String 2).CopyAndPad ⟨[97, 98], by decide⟩) = true ↔
        (⟨[97, 98], by decide⟩ : CString) = ⟨[97, 98], by decide⟩) :=
  ⟨by decide, by decide,
    copyAndPad_constantTimeEquals_iff 2 ⟨[1, 2, 3], rfl⟩ ⟨[7, 0, 9], rfl⟩
      ⟨[97, 98], by decide⟩ ⟨[97, 98], by decide⟩ (by decide) (by decide)⟩

/-- C2: after `CopyAndPad(src)` the storage of `N + 1` bytes is the first
`min(strlen(src), N)` characters of `src` followed by zero bytes up to and
including offset `N`; the result is the same whatever the storage held before. -/
theorem copyAndPad_storage_eq (N : Nat) (x y : String N) (src : CString) :
    (x.CopyAndPad src).storage =
        src.chars.take (min src.strlen N) ++ List.replicate (N + 1 - min src.strlen N) 0 ∧
      x.CopyAndPad src = y.CopyAndPad src := by
  have htake : src.chars.take (min src.strlen N) = src.chars.take N := by
    rw [CString.strlen_eq]
    rcases Nat.le_total src.chars.length N with h | h
    · rw [Nat.min_eq_left h, List.take_of_length_le (Nat.le_refl _), List.take_of_length_le h]
    · rw [Nat.min_eq_right h]
  constructor
  · rw [htake, copyAndPad_storage, CString.strlen_eq]
  · apply String.eq_of_storage
    rw [copyAndPad_storage, copyAndPad_storage]

/-- C3: `ConstantTimeEquals` returns true exactly when the two storages hold the
same byte at every offset below `N`, whatever those bytes are (zero bytes
included); the accumulator of the loop is zero exactly in that case. -/
theorem constantTimeEquals_iff_bytes (N : Nat) (x y : String N) :
    (x.ConstantTimeEquals y = true ↔
        ∀ i, i < N → x.storage.getD i 0 = y.storage.getD i 0) ∧
      ((x.compareLoop y).rslt = 0 ↔ ∀ i, i < N → x.storage.getD i 0 = y.storage.getD i 0) :=
  ⟨constantTimeEquals_iff x y, (compareFold x y N).1⟩

/-- C5: starting from construction on any memory, after every operation of any
finite sequence of `Clear`, `copy`, `cat` and `CopyAndPad` calls (the state
after the first `k` operations, for every `k`) the storage of `N + 1` bytes
holds a zero terminator at some offset below `N + 1`. -/
theorem terminated_after_every_operation (N : Nat) (prior : String N) (ops : List Op)
    (k : Nat) : ∃ i, i < N + 1 ∧ ((String.ctor prior).run (ops.take k)).storage.getD i 0 = 0 :=
  terminated_run_of (ops.take k) (String.ctor prior) (terminated_ctor prior)

/-- C6: on a buffer of declared length `L >= 1`, `copy` of a source of exactly
`L - 1` characters stores the source and its terminator and returns false;
`copy` of a source of `L` characters stores its first `L - 1` characters and
the terminator and returns true. -/
theorem copy_truncation_boundary (r : StringRef) (src : CString) (h1 : 1 ≤ r.len)
    (hlen : r.len ≤ r.p.length) :
    (src.strlen = r.len - 1 →
        (r.copy src).1.p.take r.len = src.chars ++ [0] ∧ (r.copy src).2 = false) ∧
      (src.strlen = r.len - 1 + 1 →
        (r.copy src).1.p.take r.len = src.chars.take (r.len - 1) ++ [0] ∧
          (src.chars.take (r.len - 1)).length + 1 = src.chars.length ∧
          (r.copy src).2 = true) := by
  have hp := StringRef.copy_p r src h1 hlen
  have hL : r.len = (src.chars.take (r.len - 1)).length + 1 ∨ src.chars.length < r.len - 1 := by
    simp only [List.length_take]
    omega
  constructor
  · intro h
    rw [CString.strlen_eq] at h
    constructor
    · rw [hp, List.take_of_length_le (Nat.le_of_eq h)]
      rw [show r.len = src.chars.length + 1 by omega]
      exact take_append_cons_succ _ _ _
    · simp [StringRef.copy, CString.strlen_eq, h]
  · intro h
    rw [CString.strlen_eq] at h
    have hk : (src.chars.take (r.len - 1)).length = r.len - 1 := by
      simp only [List.length_take]
      omega
    refine ⟨?_, by omega, ?_⟩
    · rw [hp]
      have : r.len = (src.chars.take (r.len - 1)).length + 1 := by omega
      rw [show List.take r.len
          (List.take (r.len - 1) src.chars ++
            0 :: List.drop (min src.chars.length (r.len - 1) + 1) r.p) =
          List.take ((src.chars.take (r.len - 1)).length + 1)
          (List.take (r.len - 1) src.chars ++
            0 :: List.drop (min src.chars.length (r.len - 1) + 1) r.p) by rw [← this]]
      exact take_append_cons_succ _ _ _
    · simp [StringRef.copy, CString.strlen_eq, h]

/-- Witness of C6 on a buffer of declared length 3: "ab" fits exactly and is not
flagged, "abc" loses its last character and is flagged. -/
theorem copy_truncation_boundary_witness :
    ((StringRef.copy ⟨[1, 2, 3], 3⟩ ⟨[97, 98], by decide⟩).1.p.take 3 = [97, 98, 0] ∧
        (StringRef.copy ⟨[1, 2, 3], 3⟩ ⟨[97, 98], by decide⟩).2 = false) ∧
      ((StringRef.copy ⟨[1, 2, 3], 3⟩ ⟨[97, 98, 99], by decide⟩).1.p.take 3 = [97, 98, 0] ∧
        (StringRef.copy ⟨[1, 2, 3], 3⟩ ⟨[97, 98, 99], by decide⟩).2 = true) :=
  ⟨(copy_truncation_boundary ⟨[1, 2, 3], 3⟩ ⟨[97, 98], by decide⟩ (by decide) (by decide)).1
      (by decide),
    ⟨((copy_truncation_boundary ⟨[1, 2, 3], 3⟩ ⟨[97, 98, 99], by decide⟩ (by decide)
        (by decide)).2 (by decide)).1,
      ((copy_truncation_boundary ⟨[1, 2, 3], 3⟩ ⟨[97, 98, 99], by decide⟩ (by decide)
        (by decide)).2 (by decide)).2.2⟩⟩

/-- C7: whatever a `String<N>` held, after `copy(s)` with `strlen(s) <= N` the
accessor `strlen()` returns `strlen(s)` and the bytes read through `c_str()` up
to the terminator are the characters of `s`. -/
theorem copy_round_trip (N : Nat) (x : String N) (s : CString) (h : s.strlen ≤ N) :
    (x.copy s).1.strlen = s.strlen ∧ readCStr (x.copy s).1.c_str = s.chars := by
  rw [CString.strlen_eq] at h
  have hp : (x.copy s).1.storage =
      s.chars ++ 0 :: x.storage.drop (min s.chars.length N + 1) := by
    have := StringRef.copy_p x.GetRef s (by simp [String.GetRef])
      (by simp [String.GetRef, x.size_eq])
    simp only [String.GetRef, Nat.add_sub_cancel] at this
    rw [List.take_of_length_le h] at this
    exact this
  constructor
  · unfold String.strlen
    rw [hp, strnlen_chars _ _ s.nonzero, CString.strlen_eq]
    exact Nat.min_eq_left h
  · unfold String.c_str
    rw [hp]
    exact readCStr_chars _ _ s.nonzero

/-- Witness of C7: "ab" copied into a `String<3>` that held other bytes. -/
theorem copy_round_trip_witness :
    (⟨[97, 98], by decide⟩ : CString).strlen ≤ 3 ∧
      ((⟨[1, 2, 3, 4], rfl⟩ : String 3).copy ⟨[97, 98], by decide⟩).1.strlen = 2 ∧
      readCStr ((⟨[1, 2, 3, 4], rfl⟩ : String 3).copy ⟨[97, 98], by decide⟩).1.c_str
        = [97, 98] :=
  ⟨by decide, copy_round_trip 3 ⟨[1, 2, 3, 4], rfl⟩ ⟨[97, 98], by decide⟩ (by decide)⟩

/-- C8: a newly constructed `String<N>` is the empty string: the byte at offset
0 is the terminator, `IsEmpty()` returns true and `strlen()` returns 0. -/
theorem ctor_is_empty (N : Nat) (prior : String N) :
    (String.ctor prior).storage.getD 0 0 = 0 ∧ (String.ctor prior).IsEmpty = true ∧
      (String.ctor prior).strlen = 0 := by
  obtain ⟨l, hl⟩ := prior
  cases l with
  | nil => simp at hl
  | cons c rest =>
    refine ⟨rfl, rfl, ?_⟩
    cases N <;> simp [String.strlen, String.ctor, strnlen]

/-- C10: `Clear()` on a `StringRef` of declared length at least 1, and on a
`String<N>`, whatever they hold, writes the terminator at offset 0, so that
`IsEmpty()` is true afterwards, and leaves every byte at offset 1 or more (and
the declared length) unchanged. -/
theorem clear_frame (r : StringRef) (N : Nat) (s : String N) (h1 : 1 ≤ r.len)
    (hlen : r.len ≤ r.p.length) :
    (r.Clear.p.getD 0 0 = 0 ∧ r.Clear.IsEmpty = true ∧ r.Clear.len = r.len ∧
        r.Clear.p.length = r.p.length ∧
        ∀ i, 1 ≤ i → r.Clear.p.getD i 0 = r.p.getD i 0) ∧
      (s.Clear.storage.getD 0 0 = 0 ∧ s.Clear.IsEmpty = true ∧
        ∀ i, 1 ≤ i → s.Clear.storage.getD i 0 = s.storage.getD i 0) := by
  have hr0 : r.Clear.p.getD 0 0 = 0 := by
    simp only [StringRef.Clear]
    rw [getD_set, if_pos ⟨rfl, by omega⟩]
  have hs0 : s.Clear.storage.getD 0 0 = 0 := by
    simp only [String.Clear]
    rw [getD_set, if_pos ⟨rfl, by rw [s.size_eq]; omega⟩]
  refine ⟨⟨hr0, ?_, rfl, ?_, ?_⟩, hs0, ?_, ?_⟩
  · simp only [StringRef.IsEmpty, hr0, decide_True]
  · simp [StringRef.Clear]
  · intro i hi
    simp only [StringRef.Clear]
    rw [getD_set, if_neg (by omega)]
  · simp only [String.IsEmpty, hs0, decide_True]
  · intro i hi
    simp only [String.Clear]
    rw [getD_set, if_neg (by omega)]

/-- Witness of C10 on a `StringRef` over the bytes 5, 6, 7 and a `String<2>`
holding 8, 9, 4. -/
theorem clear_frame_witness :
    1 ≤ (⟨[5, 6, 7], 3⟩ : StringRef).len ∧
      (⟨[5, 6, 7], 3⟩ : StringRef).len ≤ (⟨[5, 6, 7], 3⟩ : StringRef).p.length ∧
      (StringRef.Clear ⟨[5, 6, 7], 3⟩).IsEmpty = true ∧
      (String.Clear (⟨[8, 9, 4], rfl⟩ : String 2)).IsEmpty = true :=
  ⟨by decide, by decide,
    (clear_frame ⟨[5, 6, 7], 3⟩ 2 ⟨[8, 9, 4], rfl⟩ (by decide) (by decide)).1.2.1,
    (clear_frame ⟨[5, 6, 7], 3⟩ 2 ⟨[8, 9, 4], rfl⟩ (by decide) (by decide)).2.2.1⟩

/-! ## The bounded length scan -/

theorem strnlen_ne_zero_before (m : List Byte) (n i : Nat) (hi : i < strnlen m n) :
    m.getD i 0 ≠ 0 := by
  induction m generalizing n i with
  | nil => simp [strnlen] at hi
  | cons c s ih =>
    cases n with
    | zero => simp [strnlen] at hi
    | succ n =>
      rw [strnlen] at hi
      by_cases hc : c = 0
      · rw [if_pos hc] at hi
        exact absurd hi (Nat.not_lt_zero _)
      · rw [if_neg hc] at hi
        cases i with
        | zero => simpa using hc
        | succ j =>
          rw [List.getD_cons_succ]
          exact ih n j (by omega)

theorem strnlen_zero_at (m : List Byte) (n : Nat) (h : strnlen m n < n) :
    m.getD (strnlen m n) 0 = 0 := by
  induction m generalizing n with
  | nil => simp [strnlen]
  | cons c s ih =>
    cases n with
    | zero => exact absurd h (Nat.not_lt_zero _)
    | succ n =>
      rw [strnlen] at h ⊢
      by_cases hc : c = 0
      · rw [if_pos hc]
        simpa using hc
      · rw [if_neg hc] at h ⊢
        rw [List.getD_cons_succ]
        exact ih n (by omega)

/-- The scan is determined by its three properties: a bound, no zero byte
before the result, and a zero byte at the result when it is below the bound. -/
theorem strnlen_unique (m : List Byte) (n k : Nat) (hk : k ≤ n)
    (hbefore : ∀ i, i < k → m.getD i 0 ≠ 0) (hat : k < n → m.getD k 0 = 0) :
    strnlen m n = k := by
  rcases Nat.lt_trichotomy (strnlen m n) k with hlt | heq | hgt
  · exfalso
    exact hbefore _ hlt (strnlen_zero_at m n (by omega))
  · exact heq
  · exfalso
    have hle := strnlen_le m n
    exact strnlen_ne_zero_before m n k hgt (hat (by omega))

theorem not_mem_take (l : List Byte) (k : Nat) (h : (0 : Byte) ∉ l) : (0 : Byte) ∉ l.take k :=
  fun hmem => h (List.mem_of_mem_take hmem)

theorem capacity_of_pos (w : Nat) (r : StringRef) (h1 : 1 ≤ r.len) (hw : r.len < 2 ^ w) :
    r.Capacity w = r.len - 1 := by
  unfold StringRef.Capacity
  have hpos : 0 < 2 ^ w := Nat.two_pow_pos w
  rw [show r.len + (2 ^ w - 1) = (r.len - 1) + 2 ^ w by omega, Nat.add_mod_right]
  exact Nat.mod_eq_of_lt (by omega)

/-! ## The claims, continued -/

/-- C11: whatever the storage holds, `strlen()` is the offset of the first zero
byte among the offsets below `N`, or `N` when there is none: it is at most
`Capacity() = N`, no byte before it is zero, the byte at it is zero when it is
below `N`, and it is the same for any storage that agrees on the offsets below
`N` (no byte at offset `N` or beyond is read). -/
theorem strlen_first_zero (N : Nat) (x : String N) :
    x.strlen ≤ x.Capacity ∧ x.Capacity = N ∧
      (∀ i, i < x.strlen → x.storage.getD i 0 ≠ 0) ∧
      (x.strlen < N → x.storage.getD x.strlen 0 = 0) ∧
      (∀ y : String N, (∀ i, i < N → y.storage.getD i 0 = x.storage.getD i 0) →
        y.strlen = x.strlen) := by
  have hle : x.strlen ≤ N := strnlen_le x.storage N
  refine ⟨hle, rfl, strnlen_ne_zero_before x.storage N, strnlen_zero_at x.storage N, ?_⟩
  intro y hy
  apply strnlen_unique y.storage N x.strlen hle
  · intro i hi
    rw [hy i (by omega)]
    exact strnlen_ne_zero_before x.storage N i hi
  · intro hlt
    rw [hy _ hlt]
    exact strnlen_zero_at x.storage N hlt

/-- C12: a `StringRef` of declared length `L >= 1` (a `size_t` value of `w`
bits) has `Capacity() = L - 1`; when `N + 1` is representable, `GetRef()` of a
`String<N>` has declared length `N + 1` and capacity `N`, the value of
`String<N>::Capacity()`. -/
theorem capacity_is_length_minus_one (w : Nat) (r : StringRef) (N : Nat) (s : String N)
    (h1 : 1 ≤ r.len) (hw : r.len < 2 ^ w) (hN : N + 1 < 2 ^ w) :
    r.Capacity w = r.len - 1 ∧ s.GetRef.len = N + 1 ∧ s.GetRef.Capacity w = N ∧
      s.Capacity = N := by
  refine ⟨capacity_of_pos w r h1 hw, rfl, ?_, rfl⟩
  have := capacity_of_pos w s.GetRef (by simp [String.GetRef]) (by simpa [String.GetRef] using hN)
  simpa [String.GetRef] using this

/-- Witness of C12 with a 32-bit `size_t`: a `StringRef` of declared length 5
and a `String<3>`. -/
theorem capacity_is_length_minus_one_witness :
    StringRef.Capacity 32 ⟨[1, 2, 3, 4, 5], 5⟩ = 4 ∧
      (String.GetRef (⟨[1, 2, 3, 4], rfl⟩ : String 3)).len = 4 ∧
      (String.GetRef (⟨[1, 2, 3, 4], rfl⟩ : String 3)).Capacity 32 = 3 ∧
      (⟨[1, 2, 3, 4], rfl⟩ : String 3).Capacity = 3 :=
  capacity_is_length_minus_one 32 ⟨[1, 2, 3, 4, 5], 5⟩ 3 ⟨[1, 2, 3, 4], rfl⟩ (by decide)
    (by decide) (by decide)

/-- C13: with `N = 3`, `x` after `copy("abc")` then `copy("a")` and `y` after
`CopyAndPad("a")` hold the same terminated string (the same bytes up to and
including the first terminator), yet `x.ConstantTimeEquals(y)` returns false:
the stale byte at offset 2 is compared and nothing else is reported. -/
theorem constantTimeEquals_unpadded_false :
    (((String.ctor (⟨[9, 9, 9, 9], rfl⟩ : String 3)).copy ⟨[97, 98, 99], by decide⟩).1.copy
        ⟨[97], by decide⟩).1.storage = [97, 0, 99, 0] ∧
      ((String.ctor (⟨[9, 9, 9, 9], rfl⟩ : String 3)).CopyAndPad ⟨[97], by decide⟩).storage
        = [97, 0, 0, 0] ∧
      readCStr (((String.ctor (⟨[9, 9, 9, 9], rfl⟩ : String 3)).copy
          ⟨[97, 98, 99], by decide⟩).1.copy ⟨[97], by decide⟩).1.c_str =
        readCStr ((String.ctor (⟨[9, 9, 9, 9], rfl⟩ : String 3)).CopyAndPad
          ⟨[97], by decide⟩).c_str ∧
      (((String.ctor (⟨[9, 9, 9, 9], rfl⟩ : String 3)).copy ⟨[97, 98, 99], by decide⟩).1.copy
        ⟨[97], by decide⟩).1.ConstantTimeEquals
          ((String.ctor (⟨[9, 9, 9, 9], rfl⟩ : String 3)).CopyAndPad ⟨[97], by decide⟩)
        = false := by
  refine ⟨by decide, by decide, by decide, by decide⟩

/-- C14: for sources of any length, `CopyAndPad(a)` and `CopyAndPad(b)` into two
`String<N>` values compare equal exactly when the first `min(strlen, N)`
characters of `a` and of `b` are the same string; so two sources longer than
`N` with the same first `N` characters compare equal. -/
theorem copyAndPad_truncation_collision (N : Nat) (x y : String N) (a b : CString) :
    ((x.CopyAndPad a).ConstantTimeEquals (y.CopyAndPad b) = true ↔
        a.chars.take (min a.strlen N) = b.chars.take (min b.strlen N)) ∧
      (N < a.strlen → N < b.strlen → a.chars.take N = b.chars.take N →
        (x.CopyAndPad a).ConstantTimeEquals (y.CopyAndPad b) = true) := by
  have htake : ∀ s : CString, s.chars.take (min s.strlen N) = s.chars.take N := by
    intro s
    rw [CString.strlen_eq]
    rcases Nat.le_total s.chars.length N with h | h
    · rw [Nat.min_eq_left h, List.take_of_length_le (Nat.le_refl _), List.take_of_length_le h]
    · rw [Nat.min_eq_right h]
  have hlen : ∀ s : CString, (s.chars.take N).length ≤ N := by
    intro s
    simp only [List.length_take]
    omega
  have key : (x.CopyAndPad a).ConstantTimeEquals (y.CopyAndPad b) = true ↔
      a.chars.take N = b.chars.take N := by
    rw [constantTimeEquals_iff]
    constructor
    · intro h
      apply chars_eq_of_padded_eq _ _ (not_mem_take _ _ a.nonzero) (not_mem_take _ _ b.nonzero)
        N (hlen a) (hlen b)
      intro i hi
      have := h i hi
      rw [copyAndPad_index, copyAndPad_index, if_pos hi, if_pos hi] at this
      rw [getD_take, getD_take, if_pos hi, if_pos hi]
      exact this
    · intro h i hi
      rw [copyAndPad_index, copyAndPad_index, if_pos hi, if_pos hi]
      have h1 := getD_take a.chars N i
      have h2 := getD_take b.chars N i
      rw [if_pos hi] at h1 h2
      rw [← h1, ← h2, h]
  refine ⟨?_, fun _ _ h => key.mpr h⟩
  rw [htake a, htake b]
  exact key

/-- C15: for `N >= 1` and any storage, `IsEmpty()` returns true exactly when
`strlen()` returns 0. -/
theorem isEmpty_iff_strlen_zero (N : Nat) (x : String N) (hN : 1 ≤ N) :
    x.IsEmpty = true ↔ x.strlen = 0 := by
  obtain ⟨l, hl⟩ := x
  cases l with
  | nil => simp at hl
  | cons c rest =>
    obtain ⟨n, rfl⟩ : ∃ n, N = n + 1 := ⟨N - 1, by omega⟩
    simp only [String.IsEmpty, String.strlen, strnlen, List.getD_cons_zero, decide_eq_true_iff]
    constructor
    · intro hc
      rw [if_pos hc]
    · intro h
      by_contra hc
      rw [if_neg hc] at h
      exact absurd h (Nat.succ_ne_zero _)

/-- Witness of C15: a `String<2>` whose first byte is zero. -/
theorem isEmpty_iff_strlen_zero_witness :
    1 ≤ 2 ∧ ((⟨[0, 7, 8], rfl⟩ : String 2).IsEmpty = true ↔
      (⟨[0, 7, 8], rfl⟩ : String 2).strlen = 0) :=
  ⟨by decide, isEmpty_iff_strlen_zero 2 ⟨[0, 7, 8], rfl⟩ (by decide)⟩

/-- C16: the constructor of `StringRef` does not check its length argument, and
a `StringRef` built with declared length 0 reports `Capacity() = 2^w - 1`, the
wrap-around of `0 - 1` in a `size_t` of `w` bits, which is not 0 for `w >= 1`. -/
theorem capacity_of_zero_length (w : Nat) (p : List Byte) :
    (StringRef.mk p 0).len = 0 ∧ (StringRef.mk p 0).Capacity w = 2 ^ w - 1 ∧
      (1 ≤ w → (StringRef.mk p 0).Capacity w ≠ 0) := by
  have hpos : 0 < 2 ^ w := Nat.two_pow_pos w
  have hcap : (StringRef.mk p 0).Capacity w = 2 ^ w - 1 := by
    unfold StringRef.Capacity
    rw [Nat.zero_add]
    exact Nat.mod_eq_of_lt (by omega)
  refine ⟨rfl, hcap, ?_⟩
  intro hw
  rw [hcap]
  have : 2 ^ 1 ≤ 2 ^ w := Nat.pow_le_pow_right (by decide) hw
  omega

end RepRapFirmware
